import Mathlib

/-!
Verification of the SPSC atomic ring buffer (`src/lib.rs`).

Shallow embedding of the fixed-capacity single-producer/single-consumer ring
buffer. The Rust code stores elements in a raw byte buffer (`bytes::BytesMut`)
at stride `element_size` and moves values in and out by bit-level `mem::swap`
with `MaybeUninit` placeholders; here storage is modelled at slot granularity
as a function from slot index to the slot's logical content (`none` means the
slot's bytes are uninitialized or moved-out, `some v` means the slot holds the
live value `v`).  The byte-level stride computation (`size_align`) does not
affect which value any slot holds, only where its bytes live, so it has no
counterpart in the model.

The atomic counters `wr_index` / `rd_index` are `AtomicU64`; in every state the
code can construct they stay below `ring_capacity` (each store is `x % cap`),
so the `u64` arithmetic `cur_write_idx + ring_capacity - cur_read_idx` never
wraps and is modelled by plain `Nat` arithmetic.  `&mut self` methods are
modelled by explicit state passing: a Rust method `fn f(&mut self, ..) -> R`
becomes a Lean function `State → .. → State × R`.
-/

/-- Structure `SharedBufferState<T>` from `src/lib.rs` lines 10-20: capacity, the two
position counters and the backing storage (modelled per slot, see header). -/
structure SharedBufferState (α : Type) where
  ring_capacity : Nat
  wr_index : Nat
  rd_index : Nat
  storage : Nat → Option α

/-- Method `SharedBufferState::size` (lines 31-36):
`(wr_index + ring_capacity - rd_index) % ring_capacity`. -/
def SharedBufferState.size (s : SharedBufferState α) : Nat :=
  (s.wr_index + s.ring_capacity - s.rd_index) % s.ring_capacity

/-- Method `SharedBufferState::capacity` (lines 38-40). -/
def SharedBufferState.capacity (s : SharedBufferState α) : Nat :=
  s.ring_capacity

/-- Structure `BufferWriter<T>` (lines 22-24): holds only an `Arc` to the shared state. -/
structure BufferWriter (α : Type) where
  shared_state : SharedBufferState α

/-- Structure `BufferReader<T>` (lines 26-28): holds only an `Arc` to the shared state. -/
structure BufferReader (α : Type) where
  shared_state : SharedBufferState α

/-- Method `BufferWriter::size` (lines 44-48): delegates to the shared state. -/
def BufferWriter.size (w : BufferWriter α) : Nat :=
  w.shared_state.size

/-- Method `BufferWriter::capacity` (lines 50-54). -/
def BufferWriter.capacity (w : BufferWriter α) : Nat :=
  w.shared_state.capacity

/-- Method `BufferReader::size` (lines 89-93). -/
def BufferReader.size (r : BufferReader α) : Nat :=
  r.shared_state.size

/-- Method `BufferReader::capacity` (lines 95-99). -/
def BufferReader.capacity (r : BufferReader α) : Nat :=
  r.shared_state.capacity

/-- Method `BufferWriter::try_write` (lines 56-85).  If
`(wr + cap - rd) % cap = cap - 1` the ring is full: return `Err(value)` with no
state change (the Rust early-returns before any store).  Otherwise the value is
swapped into slot `wr_index` (the slot's previous bits go into the forgotten
`MaybeUninit`, so the slot now logically holds `value`) and `wr_index` is
release-stored as `(wr_index + 1) % ring_capacity`.  `Result<(), T>` becomes
`Except α Unit`. -/
def try_write (s : SharedBufferState α) (value : α) :
    SharedBufferState α × Except α Unit :=
  if (s.wr_index + s.ring_capacity - s.rd_index) % s.ring_capacity
      = s.ring_capacity - 1 then
    (s, Except.error value)
  else
    ({ s with
        storage := fun j => if j = s.wr_index then some value else s.storage j,
        wr_index := (s.wr_index + 1) % s.ring_capacity },
      Except.ok ())

/-- Method `BufferReader::try_read` (lines 101-130).  If `rd_index = wr_index` the
ring is empty: return `None` with no state change.  Otherwise the slot at
`rd_index` is swapped with an uninitialized placeholder (slot becomes
moved-out, i.e. `none`), its previous content is returned, and `rd_index` is
release-stored as `(rd_index + 1) % ring_capacity`.  In the source the
returned value is `Some(assume_init(..))`; the model returns the slot's
logical content, which is `some _` in every state the code can reach. -/
def try_read (s : SharedBufferState α) : SharedBufferState α × Option α :=
  if s.rd_index = s.wr_index then
    (s, none)
  else
    ({ s with
        storage := fun j => if j = s.rd_index then none else s.storage j,
        rd_index := (s.rd_index + 1) % s.ring_capacity },
      s.storage s.rd_index)

/-- Function `size_align` (lines 139-147): rounds `type_size` up to a multiple of
`min_alignment`.  Pure byte-layout arithmetic; kept for fidelity. -/
def size_align (type_size min_alignment : Nat) : Nat :=
  let tmp := type_size / min_alignment
  let tmp := if type_size % min_alignment ≠ 0 then tmp + 1 else tmp
  tmp * min_alignment

/-- Function `create_ring_buffer` (lines 149-178): clamp the capacity to at least 2,
allocate fresh (all-uninitialized) storage, start both counters at 0 and hand
the one shared state to a writer and a reader handle. -/
def create_ring_buffer (α : Type) (buffer_capacity : Nat) :
    BufferWriter α × BufferReader α :=
  let actual_buffer_capacity := if buffer_capacity < 2 then 2 else buffer_capacity
  let shared_state : SharedBufferState α :=
    { ring_capacity := actual_buffer_capacity
      wr_index := 0
      rd_index := 0
      storage := fun _ => none }
  (⟨shared_state⟩, ⟨shared_state⟩)

/-- The fresh shared ring state produced by `create_ring_buffer` (the state
both returned handles point to). -/
def freshState (α : Type) (buffer_capacity : Nat) : SharedBufferState α :=
  (create_ring_buffer α buffer_capacity).1.shared_state

/-- One operation a client can perform on the ring. -/
inductive Op (α : Type) where
  | write (value : α)
  | read

/-- Run a sequence of operations against the ring.  Returns the final state,
the list of values whose `try_write` succeeded (in push order) and the list of
values returned by `try_read` (in pop order). -/
def run (s : SharedBufferState α) : List (Op α) →
    SharedBufferState α × List α × List α
  | [] => (s, [], [])
  | Op.write v :: ops =>
    match try_write s v with
    | (s', Except.ok _) =>
      let r := run s' ops
      (r.1, v :: r.2.1, r.2.2)
    | (s', Except.error _) =>
      let r := run s' ops
      (r.1, r.2.1, r.2.2)
  | Op.read :: ops =>
    match try_read s with
    | (s', some v) =>
      let r := run s' ops
      (r.1, r.2.1, v :: r.2.2)
    | (s', none) =>
      let r := run s' ops
      (r.1, r.2.1, r.2.2)

/-- Repeated `try_write` of a list of values (producer loop). -/
def writeAll (s : SharedBufferState α) : List α →
    SharedBufferState α × List (Except α Unit)
  | [] => (s, [])
  | v :: vs =>
    match try_write s v with
    | (s', r) =>
      let p := writeAll s' vs
      (p.1, r :: p.2)

/-- Performs `n` consecutive `try_read` calls, collecting the returned options. -/
def readN (s : SharedBufferState α) : Nat → SharedBufferState α × List (Option α)
  | 0 => (s, [])
  | n + 1 =>
    match try_read s with
    | (s', v) =>
      let p := readN s' n
      (p.1, v :: p.2)

/-- The `while self.try_read().is_some() {}` loop of `impl Drop for
BufferReader` (lines 133-137), with an explicit iteration bound (each
successful pop strictly shrinks the occupancy, which is below
`ring_capacity`, so `ring_capacity` iterations always reach the empty
state; `drain_reader` below instantiates the bound). -/
def drainAux : Nat → SharedBufferState α → SharedBufferState α × List α
  | 0, s => (s, [])
  | fuel + 1, s =>
    match try_read s with
    | (s', none) => (s', [])
    | (s', some v) =>
      let p := drainAux fuel s'
      (p.1, v :: p.2)

/-- Destructor `impl Drop for BufferReader` (lines 133-137): pop until empty, returning
the final state and the values that were popped (each of which Rust then
drops, running its destructor). -/
def drain_reader (s : SharedBufferState α) : SharedBufferState α × List α :=
  drainAux s.ring_capacity s

/-- The refinement invariant `QueueInv` tying a ring state to the abstract FIFO queue
`q` of its live elements: the capacity is at least 2, both counters are in
range, the occupancy equals `q.length`, and slot `(rd_index + i) % capacity`
holds the `i`-th queue element. -/
def QueueInv (s : SharedBufferState α) (q : List α) : Prop :=
  2 ≤ s.ring_capacity ∧
  s.wr_index < s.ring_capacity ∧
  s.rd_index < s.ring_capacity ∧
  q.length = s.size ∧
  ∀ i < q.length, s.storage ((s.rd_index + i) % s.ring_capacity) = q[i]?

/-! ## Arithmetic helpers for ring indices -/

/-- A number below `2 * cap` reduced mod `cap`: either itself or itself minus
`cap`. All ring-index arithmetic in the buffer stays below `2 * cap`. -/
lemma mod_two_cases (cap a : Nat) (_h0 : 0 < cap) (h : a < 2 * cap) :
    a % cap = if a < cap then a else a - cap := by
  split
  · exact Nat.mod_eq_of_lt (by assumption)
  · rw [Nat.mod_eq_sub_mod (by omega)]
    exact Nat.mod_eq_of_lt (by omega)

/-- Occupancy without the modulus, by cases on the counters' order. -/
lemma size_eq (s : SharedBufferState α) (hw : s.wr_index < s.ring_capacity)
    (hr : s.rd_index < s.ring_capacity) :
    s.size = if s.rd_index ≤ s.wr_index then s.wr_index - s.rd_index
             else s.wr_index + s.ring_capacity - s.rd_index := by
  unfold SharedBufferState.size
  rw [mod_two_cases _ _ (by omega) (by omega)]
  split_ifs <;> omega

/-- Occupancy is always below the capacity. -/
lemma size_lt (s : SharedBufferState α) (h : 0 < s.ring_capacity) :
    s.size < s.ring_capacity :=
  Nat.mod_lt _ h

/-- The slot the producer writes next is `rd_index + size` reduced mod the
capacity. -/
lemma wr_index_eq (s : SharedBufferState α) (hw : s.wr_index < s.ring_capacity)
    (hr : s.rd_index < s.ring_capacity) :
    (s.rd_index + s.size) % s.ring_capacity = s.wr_index := by
  have hs := size_eq s hw hr
  rcases le_or_lt s.rd_index s.wr_index with h | h
  · rw [if_pos h] at hs
    rw [hs, Nat.add_sub_cancel' h, Nat.mod_eq_of_lt hw]
  · rw [if_neg (by omega)] at hs
    rw [hs, show s.rd_index + (s.wr_index + s.ring_capacity - s.rd_index)
          = s.wr_index + s.ring_capacity by omega,
        Nat.add_mod_right, Nat.mod_eq_of_lt hw]

/-- Distinct offsets below the capacity land on distinct slots. -/
lemma ring_index_inj (cap rd i j : Nat) (hr : rd < cap) (hi : i < cap)
    (hj : j < cap) (h : (rd + i) % cap = (rd + j) % cap) : i = j := by
  rw [mod_two_cases cap _ (by omega) (by omega),
      mod_two_cases cap _ (by omega) (by omega)] at h
  split_ifs at h <;> omega

/-- Advancing the write counter of a non-full ring increments the occupancy. -/
lemma advance_size (cap wr rd : Nat) (h2 : 0 < cap) (hw : wr < cap)
    (hr : rd < cap) (hnf : (wr + cap - rd) % cap < cap - 1) :
    ((wr + 1) % cap + cap - rd) % cap = (wr + cap - rd) % cap + 1 := by
  rw [mod_two_cases cap (wr + cap - rd) h2 (by omega)] at hnf ⊢
  rw [mod_two_cases cap (wr + 1) h2 (by omega)]
  by_cases h3 : wr + 1 < cap
  · rw [if_pos h3, mod_two_cases cap _ h2 (by omega)]
    split_ifs at hnf ⊢ <;> omega
  · rw [if_neg h3, mod_two_cases cap _ h2 (by omega)]
    split_ifs at hnf ⊢ <;> omega

/-- Advancing the read counter of a non-empty ring decrements the occupancy. -/
lemma retreat_size (cap wr rd : Nat) (h2 : 0 < cap) (hw : wr < cap)
    (hr : rd < cap) (hne : rd ≠ wr) :
    (wr + cap - (rd + 1) % cap) % cap = (wr + cap - rd) % cap - 1 := by
  rw [mod_two_cases cap (wr + cap - rd) h2 (by omega)]
  rw [mod_two_cases cap (rd + 1) h2 (by omega)]
  by_cases h3 : rd + 1 < cap
  · rw [if_pos h3, mod_two_cases cap _ h2 (by omega)]
    split_ifs <;> omega
  · rw [if_neg h3, mod_two_cases cap _ h2 (by omega)]
    split_ifs <;> omega

/-! ## Step lemmas: one `try_write` / `try_read` against the abstract queue -/

/-- A `try_write` step never changes the capacity field. -/
lemma try_write_capacity (s : SharedBufferState α) (v : α) :
    (try_write s v).1.ring_capacity = s.ring_capacity := by
  unfold try_write
  split <;> rfl

/-- A `try_read` step never changes the capacity field. -/
lemma try_read_capacity (s : SharedBufferState α) :
    (try_read s).1.ring_capacity = s.ring_capacity := by
  unfold try_read
  split <;> rfl

/-- An invariant-holding state whose abstract queue is empty has equal
counters. -/
lemma empty_of_inv_nil {s : SharedBufferState α} (hinv : QueueInv s []) :
    s.rd_index = s.wr_index := by
  obtain ⟨hcap, hw, hr, hlen, _⟩ := hinv
  rw [size_eq s hw hr] at hlen
  simp at hlen
  split_ifs at hlen <;> omega

/-- Pushing into a full ring (occupancy `capacity - 1`) fails with the value
and performs no state change at all. -/
lemma try_write_full_state {s : SharedBufferState α} {q : List α}
    (hinv : QueueInv s q) (hfull : q.length = s.ring_capacity - 1) (v : α) :
    try_write s v = (s, Except.error v) := by
  obtain ⟨hcap, hw, hr, hlen, _⟩ := hinv
  unfold SharedBufferState.size at hlen
  unfold try_write
  rw [if_pos (by omega)]

/-- Pushing into a non-full ring succeeds and enqueues the value at the back
of the abstract queue. -/
lemma try_write_ok {s : SharedBufferState α} {q : List α} (hinv : QueueInv s q)
    (hnf : q.length < s.ring_capacity - 1) (v : α) :
    (try_write s v).2 = Except.ok () ∧
    (try_write s v).1.ring_capacity = s.ring_capacity ∧
    QueueInv (try_write s v).1 (q ++ [v]) := by
  obtain ⟨hcap, hw, hr, hlen, hslot⟩ := hinv
  have hsz := hlen
  unfold SharedBufferState.size at hsz
  have hcond : ¬ ((s.wr_index + s.ring_capacity - s.rd_index) % s.ring_capacity
      = s.ring_capacity - 1) := by omega
  have hwq : (s.rd_index + q.length) % s.ring_capacity = s.wr_index := by
    rw [hlen]
    exact wr_index_eq s hw hr
  unfold try_write
  rw [if_neg hcond]
  refine ⟨rfl, rfl, hcap, Nat.mod_lt _ (by omega), hr, ?_, ?_⟩
  · show (q ++ [v]).length = ((s.wr_index + 1) % s.ring_capacity
        + s.ring_capacity - s.rd_index) % s.ring_capacity
    rw [advance_size s.ring_capacity s.wr_index s.rd_index (by omega) hw hr
        (by omega)]
    simp
    omega
  · intro i hi
    show (if (s.rd_index + i) % s.ring_capacity = s.wr_index then some v
          else s.storage ((s.rd_index + i) % s.ring_capacity)) = (q ++ [v])[i]?
    simp only [List.length_append, List.length_cons, List.length_nil] at hi
    by_cases hcase : i < q.length
    · have hne : (s.rd_index + i) % s.ring_capacity ≠ s.wr_index := by
        intro hcontra
        have := ring_index_inj s.ring_capacity s.rd_index i q.length hr
          (by omega) (by omega) (hcontra.trans hwq.symm)
        omega
      rw [if_neg hne, hslot i hcase, List.getElem?_append_left hcase]
    · have hieq : i = q.length := by omega
      subst hieq
      rw [if_pos hwq]
      simp

/-- Popping from an empty ring returns `none` and performs no state change. -/
lemma try_read_empty_state {s : SharedBufferState α}
    (h : s.rd_index = s.wr_index) : try_read s = (s, none) := by
  unfold try_read
  rw [if_pos h]

/-- Popping from a non-empty ring returns the front of the abstract queue and
dequeues it. -/
lemma try_read_ok {s : SharedBufferState α} {x : α} {rest : List α}
    (hinv : QueueInv s (x :: rest)) :
    (try_read s).2 = some x ∧
    (try_read s).1.ring_capacity = s.ring_capacity ∧
    QueueInv (try_read s).1 rest := by
  obtain ⟨hcap, hw, hr, hlen, hslot⟩ := hinv
  have hsz := hlen
  unfold SharedBufferState.size at hsz
  simp only [List.length_cons] at hsz
  have hne : s.rd_index ≠ s.wr_index := by
    intro h
    have h0 : s.wr_index + s.ring_capacity - s.rd_index = s.ring_capacity := by
      omega
    rw [h0, Nat.mod_self] at hsz
    omega
  have h0 := hslot 0 (by simp)
  rw [Nat.add_zero, Nat.mod_eq_of_lt hr] at h0
  simp only [List.getElem?_cons_zero] at h0
  unfold try_read
  rw [if_neg hne]
  refine ⟨h0, rfl, hcap, hw, Nat.mod_lt _ (by omega), ?_, ?_⟩
  · show rest.length = (s.wr_index + s.ring_capacity
        - (s.rd_index + 1) % s.ring_capacity) % s.ring_capacity
    rw [retreat_size s.ring_capacity s.wr_index s.rd_index (by omega) hw hr hne]
    omega
  · intro i hi
    have hstep : ((s.rd_index + 1) % s.ring_capacity + i) % s.ring_capacity
        = (s.rd_index + (i + 1)) % s.ring_capacity := by
      rw [Nat.mod_add_mod, show s.rd_index + 1 + i = s.rd_index + (i + 1) by omega]
    have hsize_lt : (s.wr_index + s.ring_capacity - s.rd_index) % s.ring_capacity
        < s.ring_capacity := Nat.mod_lt _ (by omega)
    have hne2 : (s.rd_index + (i + 1)) % s.ring_capacity ≠ s.rd_index := by
      intro hcontra
      have hrd0 : (s.rd_index + 0) % s.ring_capacity = s.rd_index := by
        rw [Nat.add_zero, Nat.mod_eq_of_lt hr]
      have := ring_index_inj s.ring_capacity s.rd_index (i + 1) 0 hr
        (by omega) (by omega) (hcontra.trans hrd0.symm)
      omega
    show (if ((s.rd_index + 1) % s.ring_capacity + i) % s.ring_capacity
            = s.rd_index then none
          else s.storage (((s.rd_index + 1) % s.ring_capacity + i)
            % s.ring_capacity)) = rest[i]?
    rw [hstep, if_neg hne2, hslot (i + 1) (by simpa using Nat.succ_lt_succ hi)]
    simp

/-! ## Whole-execution lemmas -/

/-- The freshly created ring satisfies the invariant with the empty queue. -/
lemma freshState_inv (α : Type) (c : Nat) : QueueInv (freshState α c) [] := by
  unfold freshState create_ring_buffer QueueInv SharedBufferState.size
  by_cases h : c < 2
  · simp [h]
  · simp [h]
    omega

/-- The capacity field of the fresh state is the clamped requested capacity. -/
lemma freshState_capacity (α : Type) (c : Nat) :
    (freshState α c).ring_capacity = if c < 2 then 2 else c := rfl

/-- Running any operation list never changes the capacity field. -/
lemma run_capacity (ops : List (Op α)) (s : SharedBufferState α) :
    (run s ops).1.ring_capacity = s.ring_capacity := by
  induction ops generalizing s with
  | nil => rfl
  | cons op ops ih =>
    cases op with
    | write v =>
      have h := try_write_capacity s v
      unfold run
      rcases htw : try_write s v with ⟨s', r⟩
      rw [htw] at h
      cases r <;> simpa [ih s'] using h
    | read =>
      have h := try_read_capacity s
      unfold run
      rcases htr : try_read s with ⟨s', r⟩
      rw [htr] at h
      cases r <;> simpa [ih s'] using h

/-- Refinement of a whole run: the popped values followed by the values left
in the ring are exactly the initial queue followed by the successfully pushed
values — FIFO order, nothing lost, nothing duplicated. -/
lemma run_inv {q : List α} {s : SharedBufferState α} (ops : List (Op α))
    (hinv : QueueInv s q) :
    ∃ qf, QueueInv (run s ops).1 qf ∧
      (run s ops).2.2 ++ qf = q ++ (run s ops).2.1 := by
  induction ops generalizing s q with
  | nil => exact ⟨q, hinv, by simp [run]⟩
  | cons op ops ih =>
    cases op with
    | write v =>
      by_cases hfull : q.length = s.ring_capacity - 1
      · have hfw := try_write_full_state hinv hfull v
        simp only [run, hfw]
        exact ih hinv
      · have hnf : q.length < s.ring_capacity - 1 := by
          obtain ⟨hcap, hw, hr, hlen, _⟩ := hinv
          have := size_lt s (by omega)
          omega
        have hok := try_write_ok hinv hnf v
        rcases hsv : try_write s v with ⟨s1, r⟩
        rw [hsv] at hok
        cases r with
        | error e => exact absurd hok.1 (by simp)
        | ok u =>
          have h3 : QueueInv s1 (q ++ [v]) := hok.2.2
          simp only [run, hsv]
          obtain ⟨qf, hqf, hlist⟩ := ih h3
          refine ⟨qf, hqf, ?_⟩
          rw [hlist]
          simp
    | read =>
      rcases hq : q with _ | ⟨x, rest⟩
      · subst hq
        have hre := try_read_empty_state (empty_of_inv_nil hinv)
        simp only [run, hre]
        exact ih hinv
      · subst hq
        have hro := try_read_ok hinv
        rcases hsr : try_read s with ⟨s1, r⟩
        rw [hsr] at hro
        cases r with
        | none => exact absurd hro.1 (by simp)
        | some y =>
          have hyx : y = x := by simpa using hro.1
          subst hyx
          have h3 : QueueInv s1 rest := hro.2.2
          simp only [run, hsr]
          obtain ⟨qf, hqf, hlist⟩ := ih h3
          refine ⟨qf, hqf, ?_⟩
          rw [List.cons_append, hlist]
          simp

/-- Writing a list that fits in the free space succeeds throughout and
appends the values to the abstract queue. -/
lemma writeAll_ok {s : SharedBufferState α} {q : List α} (vs : List α)
    (hinv : QueueInv s q)
    (hfit : q.length + vs.length ≤ s.ring_capacity - 1) :
    (writeAll s vs).2 = List.replicate vs.length (Except.ok ()) ∧
    (writeAll s vs).1.ring_capacity = s.ring_capacity ∧
    QueueInv (writeAll s vs).1 (q ++ vs) := by
  induction vs generalizing s q with
  | nil => simpa [writeAll] using hinv
  | cons v vs ih =>
    have hnf : q.length < s.ring_capacity - 1 := by
      simp only [List.length_cons] at hfit
      omega
    have hok := try_write_ok hinv hnf v
    rcases hsv : try_write s v with ⟨s1, r⟩
    rw [hsv] at hok
    cases r with
    | error e => exact absurd hok.1 (by simp)
    | ok u =>
      have h3 : QueueInv s1 (q ++ [v]) := hok.2.2
      have hc1 : s1.ring_capacity = s.ring_capacity := hok.2.1
      have hfit2 : (q ++ [v]).length + vs.length ≤ s1.ring_capacity - 1 := by
        rw [hc1]
        simp only [List.length_append, List.length_cons, List.length_nil] at hfit ⊢
        omega
      obtain ⟨ih1, ih2, ih3⟩ := ih h3 hfit2
      simp only [writeAll, hsv]
      refine ⟨by simp [ih1, List.replicate_succ], by rw [ih2, hc1], ?_⟩
      simpa [List.append_assoc] using ih3

/-- The drain loop with enough fuel empties the ring and returns exactly the
abstract queue, front first. -/
lemma drainAux_spec (fuel : Nat) (q : List α) (s : SharedBufferState α)
    (hinv : QueueInv s q) (hfit : q.length ≤ fuel) :
    (drainAux fuel s).2 = q ∧ QueueInv (drainAux fuel s).1 [] := by
  induction fuel generalizing s q with
  | zero =>
    have hq : q = [] := by
      cases q with
      | nil => rfl
      | cons x rest => simp at hfit
    subst hq
    exact ⟨rfl, hinv⟩
  | succ fuel ih =>
    cases q with
    | nil =>
      have hre := try_read_empty_state (empty_of_inv_nil hinv)
      simp only [drainAux, hre]
      exact ⟨trivial, hinv⟩
    | cons x rest =>
      have hro := try_read_ok hinv
      rcases hsr : try_read s with ⟨s1, r⟩
      rw [hsr] at hro
      cases r with
      | none => exact absurd hro.1 (by simp)
      | some y =>
        have hyx : y = x := by simpa using hro.1
        subst hyx
        have h3 : QueueInv s1 rest := hro.2.2
        obtain ⟨ih1, ih2⟩ := ih rest s1 h3 (by simp at hfit; omega)
        simp only [drainAux, hsr]
        exact ⟨by simp [ih1], ih2⟩

/-! ## Claim theorems -/

/-- Claim C1, counterexample to the literal statement: pushing a value into a
NON-FULL but non-empty ring and then immediately popping does not yield that
value — it yields the oldest element (FIFO).  Capacity 3, ring holding `1`
(occupancy 1 < capacity - 1): pushing `2` succeeds, but the immediate pop
returns `1`, not `2`. -/
theorem claim1_counterexample :
    ((try_write (freshState Nat 3) 1).1.size
        < (try_write (freshState Nat 3) 1).1.capacity - 1) ∧
    (try_write ((try_write (freshState Nat 3) 1).1) 2).2 = Except.ok () ∧
    (try_read ((try_write ((try_write (freshState Nat 3) 1).1) 2).1)).2
      = some 1 ∧
    (try_read ((try_write ((try_write (freshState Nat 3) 1).1) 2).1)).2
      ≠ some 2 :=
  ⟨by decide, rfl, by decide, by decide⟩

/-- Claim C1 (amended): FIFO with no loss and no duplication — for every
sequence of operations on a freshly created ring, the values returned by
`try_read`, followed by the values still resident in the ring, are exactly the
successfully pushed values in push order (so each successfully pushed value is
popped at most once, in order, and never lost); and pushing `x` into an EMPTY
(rather than merely non-full) ring and immediately popping yields `x`
unchanged. -/
theorem claim1_fifo_no_loss_no_dup (α : Type) (c : Nat) (ops : List (Op α)) :
    (∃ qf, QueueInv (run (freshState α c) ops).1 qf ∧
        (run (freshState α c) ops).2.2 ++ qf = (run (freshState α c) ops).2.1) ∧
    (∀ (s : SharedBufferState α) (x : α), QueueInv s [] →
        (try_read (try_write s x).1).2 = some x) := by
  constructor
  · obtain ⟨qf, h1, h2⟩ := run_inv ops (freshState_inv α c)
    exact ⟨qf, h1, by simpa using h2⟩
  · intro s x hinv
    have hcap : 2 ≤ s.ring_capacity := by
      obtain ⟨hcap, _, _, _, _⟩ := hinv
      exact hcap
    have hok := try_write_ok hinv (by simp only [List.length_nil]; omega) x
    have h4 : QueueInv (try_write s x).1 [x] := hok.2.2
    exact (try_read_ok h4).1

/-- Witness for C1: concrete empty-ring round trip through the theorem. -/
theorem claim1_fifo_witness :
    QueueInv (freshState Nat 4) [] ∧
    (try_read (try_write (freshState Nat 4) 7).1).2 = some 7 :=
  ⟨freshState_inv Nat 4,
    (claim1_fifo_no_loss_no_dup Nat 4 []).2 (freshState Nat 4) 7
      (freshState_inv Nat 4)⟩

/-- Claim C3: for every ring state whose occupancy equals `capacity - 1`,
`try_write` returns `Err` carrying exactly the value passed in and the entire
state — both counters and every slot — is returned unchanged: no partial
write. -/
theorem claim3_full_write_no_op (s : SharedBufferState α) (v : α)
    (hfull : s.size = s.capacity - 1) :
    try_write s v = (s, Except.error v) := by
  unfold SharedBufferState.size SharedBufferState.capacity at hfull
  unfold try_write
  rw [if_pos hfull]

/-- Witness for C3: a concrete full state of capacity 2. -/
theorem claim3_full_write_no_op_witness :
    (⟨2, 1, 0, fun j => if j = 0 then some 7 else none⟩ :
        SharedBufferState Nat).size
      = (⟨2, 1, 0, fun j => if j = 0 then some 7 else none⟩ :
          SharedBufferState Nat).capacity - 1 ∧
    try_write (⟨2, 1, 0, fun j => if j = 0 then some 7 else none⟩ :
        SharedBufferState Nat) 9
      = ((⟨2, 1, 0, fun j => if j = 0 then some 7 else none⟩ :
          SharedBufferState Nat), Except.error 9) :=
  ⟨by decide, claim3_full_write_no_op _ 9 (by decide)⟩

/-- Claim C4: for every ring state with `rd_index = wr_index`, `try_read`
returns `None` and leaves the state unchanged, hence any number of
consecutive `try_read` calls all return `None` with no side effects. -/
theorem claim4_empty_read_no_op (s : SharedBufferState α)
    (h : s.rd_index = s.wr_index) :
    try_read s = (s, none) ∧ ∀ n, readN s n = (s, List.replicate n none) := by
  have h1 : try_read s = (s, none) := by
    unfold try_read
    rw [if_pos h]
  refine ⟨h1, ?_⟩
  intro n
  induction n with
  | zero => rfl
  | succ n ih => simp [readN, h1, ih, List.replicate_succ]

/-- Witness for C4: a concrete empty state of capacity 2. -/
theorem claim4_empty_read_no_op_witness :
    (⟨2, 0, 0, fun _ => none⟩ : SharedBufferState Nat).rd_index
      = (⟨2, 0, 0, fun _ => none⟩ : SharedBufferState Nat).wr_index ∧
    (try_read (⟨2, 0, 0, fun _ => none⟩ : SharedBufferState Nat)
      = ((⟨2, 0, 0, fun _ => none⟩ : SharedBufferState Nat), none) ∧
     ∀ n, readN (⟨2, 0, 0, fun _ => none⟩ : SharedBufferState Nat) n
      = ((⟨2, 0, 0, fun _ => none⟩ : SharedBufferState Nat),
          List.replicate n none)) :=
  ⟨rfl, claim4_empty_read_no_op _ rfl⟩

/-- Claim C2: for every requested capacity `c ≥ 2`, the occupancy reported by
`size` never exceeds `c - 1` under any sequence of pushes and pops; and a
sequence of consecutive `try_write` calls starting from the empty ring
succeeds exactly `c - 1` times, with the `c`-th call failing and returning
its argument unchanged (and no state change). -/
theorem claim2_usable_capacity (α : Type) (c : Nat) (hc : 2 ≤ c)
    (vs : List α) (w : α) (hlen : vs.length = c - 1) :
    (∀ ops : List (Op α), (run (freshState α c) ops).1.size ≤ c - 1) ∧
    (writeAll (freshState α c) vs).2 = List.replicate (c - 1) (Except.ok ()) ∧
    try_write (writeAll (freshState α c) vs).1 w
      = ((writeAll (freshState α c) vs).1, Except.error w) := by
  have hcapf : (freshState α c).ring_capacity = c := by
    rw [freshState_capacity]
    simp [Nat.not_lt.mpr hc]
  have hWA := writeAll_ok vs (freshState_inv α c)
    (by simp only [List.length_nil, Nat.zero_add, hcapf, hlen]; omega)
  refine ⟨?_, ?_, ?_⟩
  · intro ops
    have hc2 : (run (freshState α c) ops).1.ring_capacity = c := by
      rw [run_capacity, hcapf]
    have hlt := size_lt (run (freshState α c) ops).1 (by omega)
    omega
  · rw [hWA.1, hlen]
  · have hq : QueueInv (writeAll (freshState α c) vs).1 vs := hWA.2.2
    apply try_write_full_state hq
    rw [hWA.2.1, hcapf, hlen]

/-- Witness for C2: capacity 3, two pushes succeed, the third fails. -/
theorem claim2_usable_capacity_witness :
    2 ≤ 3 ∧ ([5, 6] : List Nat).length = 3 - 1 ∧
    ((∀ ops : List (Op Nat), (run (freshState Nat 3) ops).1.size ≤ 3 - 1) ∧
     (writeAll (freshState Nat 3) [5, 6]).2
        = List.replicate (3 - 1) (Except.ok ()) ∧
     try_write (writeAll (freshState Nat 3) [5, 6]).1 9
        = ((writeAll (freshState Nat 3) [5, 6]).1, Except.error 9)) :=
  ⟨by decide, by decide, claim2_usable_capacity Nat 3 (by decide) [5, 6] 9
    (by decide)⟩

/-- Claim C5: `size` on the shared state computes
`(write_pos + capacity - read_pos) mod capacity` (stated over the integers,
where the subtraction is the mathematical one), `capacity` returns the fixed
slot-count field, and both the writer and reader handles delegate to the very
same shared-state functions.  All four are pure functions of the state (the
Rust methods take `&self`), so no call changes the ring state. -/
theorem claim5_size_capacity_formula (s : SharedBufferState α)
    (hr : s.rd_index < s.ring_capacity) :
    s.size = (s.wr_index + s.ring_capacity - s.rd_index) % s.ring_capacity ∧
    ((s.size : Int) = ((s.wr_index : Int) + (s.ring_capacity : Int)
        - (s.rd_index : Int)) % (s.ring_capacity : Int)) ∧
    s.capacity = s.ring_capacity ∧
    BufferWriter.size ⟨s⟩ = s.size ∧ BufferReader.size ⟨s⟩ = s.size ∧
    BufferWriter.capacity ⟨s⟩ = s.capacity ∧
    BufferReader.capacity ⟨s⟩ = s.capacity := by
  refine ⟨rfl, ?_, rfl, rfl, rfl, rfl, rfl⟩
  unfold SharedBufferState.size
  have hle : s.rd_index ≤ s.wr_index + s.ring_capacity := by omega
  push_cast [Nat.cast_sub hle]
  ring_nf

/-- Witness for C5: a concrete state with one element. -/
theorem claim5_size_capacity_formula_witness :
    (⟨3, 1, 0, fun _ => none⟩ : SharedBufferState Nat).rd_index
      < (⟨3, 1, 0, fun _ => none⟩ : SharedBufferState Nat).ring_capacity ∧
    (((⟨3, 1, 0, fun _ => none⟩ : SharedBufferState Nat).size : Int)
      = (((⟨3, 1, 0, fun _ => none⟩ : SharedBufferState Nat).wr_index : Int)
          + ((⟨3, 1, 0, fun _ => none⟩ :
              SharedBufferState Nat).ring_capacity : Int)
          - ((⟨3, 1, 0, fun _ => none⟩ :
              SharedBufferState Nat).rd_index : Int))
        % ((⟨3, 1, 0, fun _ => none⟩ :
            SharedBufferState Nat).ring_capacity : Int)) :=
  ⟨by decide, (claim5_size_capacity_formula
    (⟨3, 1, 0, fun _ => none⟩ : SharedBufferState Nat) (by decide)).2.1⟩

/-- Claim C6: destroying the reader drains the ring: from any state holding
the queue `q` of not-yet-popped elements, the drain loop of `Drop` pops
exactly those `n` elements, each exactly once and in order (so each has its
cleanup run exactly once by the normal value-drop path), and the ring is
empty afterwards. -/
theorem claim6_drop_drains (s : SharedBufferState α) (q : List α)
    (hinv : QueueInv s q) :
    (drain_reader s).2 = q ∧ (drain_reader s).1.size = 0 := by
  have hfitq : q.length ≤ s.ring_capacity := by
    obtain ⟨hcap, hw, hr2, hlen, _⟩ := hinv
    have := size_lt s (by omega)
    omega
  unfold drain_reader
  obtain ⟨h1, h2⟩ := drainAux_spec s.ring_capacity q s hinv hfitq
  refine ⟨h1, ?_⟩
  obtain ⟨_, _, _, hlen0, _⟩ := h2
  simpa using hlen0.symm

/-- Witness for C6: draining a capacity-3 ring holding `[10, 20]`. -/
theorem claim6_drop_drains_witness :
    QueueInv (⟨3, 2, 0, fun j => if j = 0 then some 10 else
      if j = 1 then some 20 else none⟩ : SharedBufferState Nat) [10, 20] ∧
    ((drain_reader (⟨3, 2, 0, fun j => if j = 0 then some 10 else
        if j = 1 then some 20 else none⟩ : SharedBufferState Nat)).2
      = [10, 20] ∧
     (drain_reader (⟨3, 2, 0, fun j => if j = 0 then some 10 else
        if j = 1 then some 20 else none⟩ : SharedBufferState Nat)).1.size
      = 0) :=
  ⟨by unfold QueueInv; decide,
   claim6_drop_drains _ [10, 20] (by unfold QueueInv; decide)⟩

/-- Claim C7: `create_ring_buffer` realizes a capacity of at least 2 for
every request; both returned handles report the same capacity; and for every
requested capacity below 2 the realized capacity is exactly 2. -/
theorem claim7_capacity_clamped (α : Type) (c : Nat) :
    2 ≤ (create_ring_buffer α c).1.capacity ∧
    (create_ring_buffer α c).2.capacity = (create_ring_buffer α c).1.capacity ∧
    (c < 2 → (create_ring_buffer α c).1.capacity = 2) := by
  unfold create_ring_buffer BufferWriter.capacity BufferReader.capacity
    SharedBufferState.capacity
  by_cases h : c < 2
  · simp [h]
  · simp [h]
    omega

/-- Witness for C7: requested capacity 0 is clamped to 2. -/
theorem claim7_capacity_clamped_witness :
    (0 : Nat) < 2 ∧ (create_ring_buffer Nat 0).1.capacity = 2 :=
  ⟨by decide, (claim7_capacity_clamped Nat 0).2.2 (by decide)⟩

/-- Claim C8: starting from the freshly constructed ring, after every
sequence of `try_write` / `try_read` operations both counters lie in
`[0, capacity)` (the lower bound is inherent to `Nat`). -/
theorem claim8_counters_in_range (α : Type) (c : Nat) (ops : List (Op α)) :
    (run (freshState α c) ops).1.wr_index
      < (run (freshState α c) ops).1.ring_capacity ∧
    (run (freshState α c) ops).1.rd_index
      < (run (freshState α c) ops).1.ring_capacity := by
  obtain ⟨qf, hqf, _⟩ := run_inv ops (freshState_inv α c)
  obtain ⟨_, hw, hrd, _, _⟩ := hqf
  exact ⟨hw, hrd⟩

/-- Claim C10: for every requested capacity `c ≥ 2` the realized capacity is
exactly `c` on both handles (no rounding), and the fresh ring is empty:
`size` returns 0 on both handles. -/
theorem claim10_exact_capacity_fresh_empty (α : Type) (c : Nat) (hc : 2 ≤ c) :
    (create_ring_buffer α c).1.capacity = c ∧
    (create_ring_buffer α c).2.capacity = c ∧
    (create_ring_buffer α c).1.size = 0 ∧
    (create_ring_buffer α c).2.size = 0 := by
  unfold create_ring_buffer BufferWriter.capacity BufferReader.capacity
    BufferWriter.size BufferReader.size SharedBufferState.capacity
    SharedBufferState.size
  have h : ¬ c < 2 := by omega
  simp [h]

/-- Witness for C10: the capacity-12 ring of the repository's own test. -/
theorem claim10_exact_capacity_fresh_empty_witness :
    2 ≤ 12 ∧
    ((create_ring_buffer Nat 12).1.capacity = 12 ∧
     (create_ring_buffer Nat 12).2.capacity = 12 ∧
     (create_ring_buffer Nat 12).1.size = 0 ∧
     (create_ring_buffer Nat 12).2.size = 0) :=
  ⟨by decide, claim10_exact_capacity_fresh_empty Nat 12 (by decide)⟩
